import Mathlib

/-!
A verification development for the `newfmt` pretty-printing core
(`src/src/main.rs`): a Wadler-style document algebra (`FormatElement`),
flattening, grouping, the width-aware layout engine (`fit_documents` /
`pick_better_fit` / `FittedDocument.fits`) and the renderer
(`print_fitted_document`).

Modelling conventions:
* Rust `usize` arithmetic is modelled on `Nat`.  `saturating_sub` is Lean's
  truncated `Nat` subtraction.  The unchecked subtraction `width - chars_left`
  in `pick_better_fit` is a Rust arithmetic-overflow program error when
  `chars_left > width` (panic with debug assertions, wrap-around in release);
  it is modelled by `checkedSub`, and the whole layout pipeline consequently
  returns `Option` values, `none` marking the panic.
* Rust `String::len` (UTF-8 byte count) is `String.utf8ByteSize`.
* The Rust work list is a `Vec` used as a stack (push/pop at the *end*,
  children of a `List` pushed in reverse order).  The model uses a Lean
  `List` whose *head* is the top of the stack, so pushing children in
  reverse source order becomes prepending them in source order.
-/

namespace Newfmt

/-- `FormatElement` from `src/src/main.rs` (lines 10–19). -/
inductive FormatElement where
  | Empty : FormatElement
  | List : List FormatElement → FormatElement
  | Indent : Nat → FormatElement → FormatElement
  | Token : String → FormatElement
  | LineOrSpace : FormatElement
  | LineOrEmpty : FormatElement
  | Union : FormatElement → FormatElement → FormatElement
deriving Repr

/-- `FittedDocument` from `src/src/main.rs` (lines 21–25). -/
inductive FittedDocument where
  | Empty : FittedDocument
  | Text : String → FittedDocument → FittedDocument
  | Line : Nat → FittedDocument → FittedDocument
deriving Repr, DecidableEq

/-- `fn empty()` (line 29). -/
def empty : FormatElement := .Empty

/-- `fn concat(docs)` (line 33). -/
def concat (docs : List FormatElement) : FormatElement := .List docs

/-- `fn nest(indent, x)` (line 37). -/
def nest (indent : Nat) (x : FormatElement) : FormatElement := .Indent indent x

/-- `fn text(s)` (line 41). -/
def text (s : String) : FormatElement := .Token s

/-- `fn literal(s)` (line 45). -/
def literal (s : String) : FormatElement := .Token s

/-- `fn line_or_space()` (line 49). -/
def line_or_space : FormatElement := .LineOrSpace

/-- `fn line_or_empty()` (line 53). -/
def line_or_empty : FormatElement := .LineOrEmpty

mutual

/-- `fn flatten(x)` (lines 62–75).  The Rust `docs.iter().map(flatten)`
over the shared children is `flattenList`. -/
def flatten : FormatElement → FormatElement
  | .Empty => .Empty
  | .Token s => .Token s
  | .List docs => .List (flattenList docs)
  | .Indent offset x => .Indent offset (flatten x)
  | .LineOrSpace => .Token " "
  | .LineOrEmpty => .Empty
  | .Union x _ => flatten x

/-- `docs.iter().map(|d| flatten(d.clone())).collect()` (lines 65–67). -/
def flattenList : List FormatElement → List FormatElement
  | [] => []
  | d :: ds => flatten d :: flattenList ds

end

/-- `fn group(x)` (lines 57–60): `Union(flatten(x), x)`. -/
def group (x : FormatElement) : FormatElement := .Union (flatten x) x

/-- `" ".repeat(offset)` (line 84). -/
def spaces (n : Nat) : String := String.mk (List.replicate n ' ')

/-- `fn print_fitted_document(x)` (lines 77–88). -/
def print_fitted_document : FittedDocument → String
  | .Empty => ""
  | .Text s x => s ++ print_fitted_document x
  | .Line offset x => "\n" ++ spaces offset ++ print_fitted_document x

/-- `FittedDocument::fits` (lines 157–169).  `width.saturating_sub(s.len())`
is truncated `Nat` subtraction of the UTF-8 byte length. -/
def FittedDocument.fits : FittedDocument → Nat → Bool
  | _, 0 => false
  | .Empty, _ => true
  | .Text s x, width => x.fits (width - s.utf8ByteSize)
  | .Line _ _, _ => true

/-- Rust `usize` subtraction `a - b`: defined only when `b ≤ a`; otherwise it
is an arithmetic-overflow program error (panic in debug builds), modelled as
`none`. -/
def checkedSub (a b : Nat) : Option Nat :=
  if b ≤ a then some (a - b) else none

/-- `fn pick_better_fit(width, chars_left, x_thunk, y_thunk)` (lines 143–155).
The thunks return `Option` results because layout itself can panic; the
evaluation order of the source is kept: first force `x_thunk`, then compute
`width - chars_left` (the possible underflow), then test `fits`, and only on
failure force `y_thunk`. -/
def pick_better_fit (width chars_left : Nat)
    (x_thunk y_thunk : Unit → Option FittedDocument) : Option FittedDocument :=
  match x_thunk () with
  | none => none
  | some x =>
    match checkedSub width chars_left with
    | none => none
    | some budget => if x.fits budget then some x else y_thunk ()

mutual

/-- Size of a document tree (termination measure only). -/
def sizeFE : FormatElement → Nat
  | .Empty => 1
  | .Token _ => 1
  | .LineOrSpace => 1
  | .LineOrEmpty => 1
  | .List ds => 1 + sizeFEList ds
  | .Indent _ x => 1 + sizeFE x
  | .Union x y => 1 + sizeFE x + sizeFE y

/-- Total size of a list of documents (termination measure only). -/
def sizeFEList : List FormatElement → Nat
  | [] => 0
  | d :: ds => sizeFE d + sizeFEList ds

end

theorem sum_map_sizeFE (ds : List FormatElement) :
    (ds.map sizeFE).sum = sizeFEList ds := by
  induction ds with
  | nil => simp [sizeFEList]
  | cons d ds ih => simp [sizeFEList, ih]

/-- Termination measure for the work list: total size of the documents on it. -/
def stackSize (l : List (Nat × FormatElement)) : Nat :=
  (l.map fun p => sizeFE p.2).sum

theorem stackSize_cons (i : Nat) (d : FormatElement)
    (docs : List (Nat × FormatElement)) :
    stackSize ((i, d) :: docs) = sizeFE d + stackSize docs := by
  simp [stackSize]

theorem stackSize_append (a b : List (Nat × FormatElement)) :
    stackSize (a ++ b) = stackSize a + stackSize b := by
  simp [stackSize]

theorem stackSize_map_pair (i : Nat) (ds : List FormatElement) :
    stackSize (ds.map fun d => (i, d)) = sizeFEList ds := by
  simp [stackSize, List.map_map]
  rw [show ((fun p => sizeFE (Prod.snd p)) ∘ fun d => ((i, d) : Nat × FormatElement))
        = sizeFE from rfl]
  exact sum_map_sizeFE ds

/-- `fn fit_documents(width, chars_placed, documents)` (lines 94–141).
The head of the Lean list is the top of the Rust `Vec` stack. -/
def fit_documents : Nat → Nat → List (Nat × FormatElement) → Option FittedDocument
  | _, _, [] => some .Empty
  | width, chars_placed, (indent, doc) :: documents =>
    match doc with
    | .Empty => fit_documents width chars_placed documents
    | .List docs =>
        fit_documents width chars_placed ((docs.map fun d => (indent, d)) ++ documents)
    | .Indent offset x =>
        fit_documents width chars_placed ((indent + offset, x) :: documents)
    | .Token s =>
        (fit_documents width (chars_placed + s.utf8ByteSize) documents).map
          (FittedDocument.Text s)
    | .LineOrSpace =>
        (fit_documents width indent documents).map (FittedDocument.Line indent)
    | .LineOrEmpty =>
        (fit_documents width indent documents).map (FittedDocument.Line indent)
    | .Union x y =>
        pick_better_fit width chars_placed
          (fun _ => fit_documents width chars_placed ((indent, x) :: documents))
          (fun _ => fit_documents width chars_placed ((indent, y) :: documents))
termination_by _ _ l => stackSize l
decreasing_by
  all_goals
    simp only [stackSize_cons, stackSize_append, stackSize_map_pair, sizeFE]
  all_goals omega

/-- `fn fit_document(width, chars_placed, x)` (lines 90–92). -/
def fit_document (width chars_placed : Nat) (x : FormatElement) :
    Option FittedDocument :=
  fit_documents width chars_placed [(0, x)]

/-- `fn pretty(width, x)` (lines 171–173). -/
def pretty (width : Nat) (x : FormatElement) : Option String :=
  (fit_document width 0 x).map print_fitted_document

/-! ### Step equations of the layout engine -/

theorem fit_nil (w cp : Nat) : fit_documents w cp [] = some .Empty := by
  simp [fit_documents]

theorem fit_empty (w cp i : Nat) (docs : List (Nat × FormatElement)) :
    fit_documents w cp ((i, .Empty) :: docs) = fit_documents w cp docs := by
  simp [fit_documents]

theorem fit_list (w cp i : Nat) (ds : List FormatElement)
    (docs : List (Nat × FormatElement)) :
    fit_documents w cp ((i, .List ds) :: docs) =
      fit_documents w cp ((ds.map fun d => (i, d)) ++ docs) := by
  simp [fit_documents]

theorem fit_indent (w cp i o : Nat) (x : FormatElement)
    (docs : List (Nat × FormatElement)) :
    fit_documents w cp ((i, .Indent o x) :: docs) =
      fit_documents w cp ((i + o, x) :: docs) := by
  simp [fit_documents]

theorem fit_token (w cp i : Nat) (s : String)
    (docs : List (Nat × FormatElement)) :
    fit_documents w cp ((i, .Token s) :: docs) =
      (fit_documents w (cp + s.utf8ByteSize) docs).map (FittedDocument.Text s) := by
  simp [fit_documents]

theorem fit_los (w cp i : Nat) (docs : List (Nat × FormatElement)) :
    fit_documents w cp ((i, .LineOrSpace) :: docs) =
      (fit_documents w i docs).map (FittedDocument.Line i) := by
  simp [fit_documents]

theorem fit_loe (w cp i : Nat) (docs : List (Nat × FormatElement)) :
    fit_documents w cp ((i, .LineOrEmpty) :: docs) =
      (fit_documents w i docs).map (FittedDocument.Line i) := by
  simp [fit_documents]

theorem fit_union (w cp i : Nat) (x y : FormatElement)
    (docs : List (Nat × FormatElement)) :
    fit_documents w cp ((i, .Union x y) :: docs) =
      match fit_documents w cp ((i, x) :: docs) with
      | none => none
      | some left =>
        match checkedSub w cp with
        | none => none
        | some budget =>
          if left.fits budget then some left
          else fit_documents w cp ((i, y) :: docs) := by
  simp [fit_documents, pick_better_fit]

/-! ### Auxiliary measures and predicates over documents -/

/-- Number of newline characters in a string. -/
def countNl (s : String) : Nat := s.data.count '\n'

mutual

/-- A document is *flat* when it is built only from `Empty`, `Token`, `List`
and `Indent` — no `LineOrSpace`, `LineOrEmpty` or `Union`. -/
def flatFE : FormatElement → Bool
  | .Empty => true
  | .Token _ => true
  | .List ds => flatAll ds
  | .Indent _ x => flatFE x
  | .LineOrSpace => false
  | .LineOrEmpty => false
  | .Union _ _ => false

def flatAll : List FormatElement → Bool
  | [] => true
  | d :: ds => flatFE d && flatAll ds

end

mutual

/-- Number of `Union` nodes in a document. -/
def unionCountFE : FormatElement → Nat
  | .Empty => 0
  | .Token _ => 0
  | .List ds => unionCountList ds
  | .Indent _ x => unionCountFE x
  | .LineOrSpace => 0
  | .LineOrEmpty => 0
  | .Union x y => 1 + unionCountFE x + unionCountFE y

def unionCountList : List FormatElement → Nat
  | [] => 0
  | d :: ds => unionCountFE d + unionCountList ds

end

mutual

/-- Number of soft breaks (`LineOrSpace`/`LineOrEmpty`) in a document
(only meaningful on `Union`-free documents). -/
def breaksFE : FormatElement → Nat
  | .Empty => 0
  | .Token _ => 0
  | .List ds => breaksList ds
  | .Indent _ x => breaksFE x
  | .LineOrSpace => 1
  | .LineOrEmpty => 1
  | .Union _ _ => 0

def breaksList : List FormatElement → Nat
  | [] => 0
  | d :: ds => breaksFE d + breaksList ds

end

mutual

/-- Total count of newline characters embedded in the `Token` strings of a
document (for a `Union`, of its flat alternative, matching `flatten`). -/
def tokNlFE : FormatElement → Nat
  | .Empty => 0
  | .Token s => countNl s
  | .List ds => tokNlList ds
  | .Indent _ x => tokNlFE x
  | .LineOrSpace => 0
  | .LineOrEmpty => 0
  | .Union x _ => tokNlFE x

def tokNlList : List FormatElement → Nat
  | [] => 0
  | d :: ds => tokNlFE d + tokNlList ds

end

mutual

/-- The `Token` strings of a flat document, in order. -/
def tokens : FormatElement → List String
  | .Empty => []
  | .Token s => [s]
  | .List ds => tokensList ds
  | .Indent _ x => tokens x
  | .LineOrSpace => []
  | .LineOrEmpty => []
  | .Union _ _ => []

def tokensList : List FormatElement → List String
  | [] => []
  | d :: ds => tokens d ++ tokensList ds

end

/-- Total UTF-8 byte length of a flat document's tokens. -/
def tokLen (e : FormatElement) : Nat :=
  ((tokens e).map String.utf8ByteSize).sum

/-! ### Auxiliary functions over fitted documents -/

/-- Prepend a list of text runs in front of a fitted document. -/
def prependTexts (ss : List String) (F : FittedDocument) : FittedDocument :=
  ss.foldr (fun s acc => .Text s acc) F

/-- Number of `Line` nodes of a fitted document. -/
def countLines : FittedDocument → Nat
  | .Empty => 0
  | .Text _ rest => countLines rest
  | .Line _ rest => 1 + countLines rest

/-- Total newline characters embedded in the `Text` nodes of a
fitted document. -/
def textNl : FittedDocument → Nat
  | .Empty => 0
  | .Text s rest => countNl s + textNl rest
  | .Line _ rest => textNl rest

/-- Resolution of a `Union`-free work list: it needs neither the width nor
the current column, and it cannot fail.  (The `Union` arm is arbitrary; the
function is only related to `fit_documents` on `Union`-free stacks.) -/
def resolveUF : List (Nat × FormatElement) → FittedDocument
  | [] => .Empty
  | (_, .Empty) :: rest => resolveUF rest
  | (i, .List ds) :: rest => resolveUF ((ds.map fun d => (i, d)) ++ rest)
  | (i, .Indent o x) :: rest => resolveUF ((i + o, x) :: rest)
  | (_, .Token s) :: rest => .Text s (resolveUF rest)
  | (i, .LineOrSpace) :: rest => .Line i (resolveUF rest)
  | (i, .LineOrEmpty) :: rest => .Line i (resolveUF rest)
  | (_, .Union _ _) :: rest => resolveUF rest
termination_by l => stackSize l
decreasing_by
  all_goals
    simp only [stackSize_cons, stackSize_append, stackSize_map_pair, sizeFE]
  all_goals omega

/-- Sum of `unionCountFE` over a work list. -/
def stackUC (l : List (Nat × FormatElement)) : Nat :=
  (l.map fun p => unionCountFE p.2).sum

/-- Sum of `breaksFE` over a work list. -/
def stackBreaks (l : List (Nat × FormatElement)) : Nat :=
  (l.map fun p => breaksFE p.2).sum

/-- Sum of `tokNlFE` over a work list. -/
def stackTokNl (l : List (Nat × FormatElement)) : Nat :=
  (l.map fun p => tokNlFE p.2).sum

/-! ### Documents built by the public constructors -/

/-- The documents produced by the public constructors `empty`, `text`
(`literal`), `concat`, `nest`, `line_or_space`, `line_or_empty` and
`group` — the producer contract of the spec. -/
inductive Built : FormatElement → Prop where
  | empty : Built .Empty
  | text (s : String) : Built (.Token s)
  | concat (ds : List FormatElement) : (∀ d ∈ ds, Built d) → Built (.List ds)
  | nest (o : Nat) (d : FormatElement) : Built d → Built (.Indent o d)
  | lineOrSpace : Built .LineOrSpace
  | lineOrEmpty : Built .LineOrEmpty
  | group (d : FormatElement) : Built d → Built (group d)

/-- Every `Union` node of the document pairs the flattening of its second
component with that component. -/
inductive UnionInv : FormatElement → Prop where
  | empty : UnionInv .Empty
  | token (s : String) : UnionInv (.Token s)
  | list (ds : List FormatElement) : (∀ d ∈ ds, UnionInv d) → UnionInv (.List ds)
  | indent (o : Nat) (d : FormatElement) : UnionInv d → UnionInv (.Indent o d)
  | lineOrSpace : UnionInv .LineOrSpace
  | lineOrEmpty : UnionInv .LineOrEmpty
  | union (x y : FormatElement) : x = flatten y → UnionInv x → UnionInv y →
      UnionInv (.Union x y)

/-- A chain of nested `Nest` wrappers with the given offsets. -/
def nests (offs : List Nat) (d : FormatElement) : FormatElement :=
  offs.foldr (fun o e => .Indent o e) d

/-- Modelled from the spec (§4.4 step 2 / claim C4): the fits test described
in words — walk the fitted document from the start subtracting each `Text`
length (here the budget is a mathematical integer, so it really can go
negative); the result fits exactly when a `Line` node or the end is reached
before the budget becomes nonpositive, and a budget that is not positive
never fits. -/
def fitsSpec (budget : Int) (F : FittedDocument) : Bool :=
  if budget ≤ 0 then false
  else
    match F with
    | .Empty => true
    | .Line _ _ => true
    | .Text s rest => fitsSpec (budget - s.utf8ByteSize) rest

/-! ### Induction infrastructure for the nested document type -/

theorem one_le_sizeFE (d : FormatElement) : 1 ≤ sizeFE d := by
  cases d <;> simp only [sizeFE] <;> omega

theorem sizeFE_le_of_mem {d : FormatElement} {ds : List FormatElement}
    (h : d ∈ ds) : sizeFE d ≤ sizeFEList ds := by
  induction ds with
  | nil => cases h
  | cons e es ih =>
    rcases List.mem_cons.mp h with rfl | h'
    · simp [sizeFEList]
    · have := ih h'; simp [sizeFEList]; omega

/-- Structural induction for `FormatElement` with a membership hypothesis in
the `List` case. -/
theorem FormatElement.indOn (P : FormatElement → Prop)
    (hEmpty : P .Empty)
    (hToken : ∀ s, P (.Token s))
    (hList : ∀ ds, (∀ d ∈ ds, P d) → P (.List ds))
    (hIndent : ∀ o x, P x → P (.Indent o x))
    (hLos : P .LineOrSpace)
    (hLoe : P .LineOrEmpty)
    (hUnion : ∀ x y, P x → P y → P (.Union x y)) :
    ∀ d, P d := fun d =>
  match d with
  | .Empty => hEmpty
  | .Token s => hToken s
  | .List ds => hList ds (fun d hd =>
      FormatElement.indOn P hEmpty hToken hList hIndent hLos hLoe hUnion d)
  | .Indent o x => hIndent o x
      (FormatElement.indOn P hEmpty hToken hList hIndent hLos hLoe hUnion x)
  | .LineOrSpace => hLos
  | .LineOrEmpty => hLoe
  | .Union x y =>
      hUnion x y
        (FormatElement.indOn P hEmpty hToken hList hIndent hLos hLoe hUnion x)
        (FormatElement.indOn P hEmpty hToken hList hIndent hLos hLoe hUnion y)
termination_by d => sizeFE d
decreasing_by
  all_goals first
    | (exact Nat.lt_of_le_of_lt (sizeFE_le_of_mem hd) (by simp only [sizeFE]; omega))
    | (simp only [sizeFE]; omega)

/-! ### The list-side helpers as folds -/

theorem flattenList_eq_map (ds : List FormatElement) :
    flattenList ds = ds.map flatten := by
  induction ds with
  | nil => simp [flattenList]
  | cons d ds ih => simp [flattenList, ih]

theorem flatten_list_eq (ds : List FormatElement) :
    flatten (.List ds) = .List (ds.map flatten) := by
  rw [show flatten (.List ds) = .List (flattenList ds) from by simp [flatten]]
  rw [flattenList_eq_map]

theorem flatAll_eq (ds : List FormatElement) :
    flatAll ds = ds.all flatFE := by
  induction ds with
  | nil => simp [flatAll]
  | cons d ds ih => simp [flatAll, ih]

theorem flatFE_list_eq (ds : List FormatElement) :
    flatFE (.List ds) = ds.all flatFE := by
  rw [show flatFE (.List ds) = flatAll ds from by simp [flatFE], flatAll_eq]

theorem unionCountList_eq (ds : List FormatElement) :
    unionCountList ds = (ds.map unionCountFE).sum := by
  induction ds with
  | nil => simp [unionCountList]
  | cons d ds ih => simp [unionCountList, ih]

theorem breaksList_eq (ds : List FormatElement) :
    breaksList ds = (ds.map breaksFE).sum := by
  induction ds with
  | nil => simp [breaksList]
  | cons d ds ih => simp [breaksList, ih]

theorem tokNlList_eq (ds : List FormatElement) :
    tokNlList ds = (ds.map tokNlFE).sum := by
  induction ds with
  | nil => simp [tokNlList]
  | cons d ds ih => simp [tokNlList, ih]

/-! ### Facts about `flatten` -/

theorem flatten_flatFE : ∀ d, flatFE (flatten d) = true := by
  intro d
  induction d using FormatElement.indOn with
  | hEmpty => simp [flatten, flatFE]
  | hToken s => simp [flatten, flatFE]
  | hList ds ih =>
    rw [flatten_list_eq, flatFE_list_eq, List.all_eq_true]
    intro x hx
    rcases List.mem_map.mp hx with ⟨d, hd, rfl⟩
    exact ih d hd
  | hIndent o x ih => simpa [flatten, flatFE] using ih
  | hLos => simp [flatten, flatFE]
  | hLoe => simp [flatten, flatFE]
  | hUnion x y ihx ihy => simpa [flatten] using ihx

theorem flatFE_breaks : ∀ d, flatFE d = true → breaksFE d = 0 := by
  intro d
  induction d using FormatElement.indOn with
  | hEmpty => intro _; simp [breaksFE]
  | hToken s => intro _; simp [breaksFE]
  | hList ds ih =>
    intro h
    rw [flatFE_list_eq, List.all_eq_true] at h
    rw [show breaksFE (.List ds) = breaksList ds from by simp [breaksFE],
      breaksList_eq]
    have : ∀ x ∈ ds.map breaksFE, x = 0 := by
      intro x hx
      rcases List.mem_map.mp hx with ⟨d, hd, rfl⟩
      exact ih d hd (h d hd)
    exact List.sum_eq_zero this
  | hIndent o x ih => intro h; simp only [flatFE] at h; simpa [breaksFE] using ih h
  | hLos => intro h; simp [flatFE] at h
  | hLoe => intro h; simp [flatFE] at h
  | hUnion x y ihx ihy => intro h; simp [flatFE] at h

theorem flatFE_unionCount : ∀ d, flatFE d = true → unionCountFE d = 0 := by
  intro d
  induction d using FormatElement.indOn with
  | hEmpty => intro _; simp [unionCountFE]
  | hToken s => intro _; simp [unionCountFE]
  | hList ds ih =>
    intro h
    rw [flatFE_list_eq, List.all_eq_true] at h
    rw [show unionCountFE (.List ds) = unionCountList ds from by simp [unionCountFE],
      unionCountList_eq]
    have : ∀ x ∈ ds.map unionCountFE, x = 0 := by
      intro x hx
      rcases List.mem_map.mp hx with ⟨d, hd, rfl⟩
      exact ih d hd (h d hd)
    exact List.sum_eq_zero this
  | hIndent o x ih => intro h; simp only [flatFE] at h; simpa [unionCountFE] using ih h
  | hLos => intro h; simp [flatFE] at h
  | hLoe => intro h; simp [flatFE] at h
  | hUnion x y ihx ihy => intro h; simp [flatFE] at h

theorem flatten_idem_all : ∀ d, flatten (flatten d) = flatten d := by
  intro d
  induction d using FormatElement.indOn with
  | hEmpty => simp [flatten]
  | hToken s => simp [flatten]
  | hList ds ih =>
    rw [flatten_list_eq, flatten_list_eq, List.map_map]
    congr 1
    apply List.map_congr_left
    intro d hd
    exact ih d hd
  | hIndent o x ih =>
    have e1 : flatten (.Indent o x) = .Indent o (flatten x) := by simp [flatten]
    rw [e1, show flatten (.Indent o (flatten x)) = .Indent o (flatten (flatten x))
      from by simp [flatten], ih]
  | hLos => simp [flatten]
  | hLoe => simp [flatten]
  | hUnion x y ihx ihy =>
    have e1 : flatten (.Union x y) = flatten x := by simp [flatten]
    rw [e1, ihx]

theorem tokNl_flatten : ∀ d, tokNlFE (flatten d) = tokNlFE d := by
  intro d
  induction d using FormatElement.indOn with
  | hEmpty => simp [flatten]
  | hToken s => simp [flatten]
  | hList ds ih =>
    rw [flatten_list_eq]
    rw [show tokNlFE (.List (ds.map flatten)) = tokNlList (ds.map flatten) from by
      simp [tokNlFE]]
    rw [show tokNlFE (.List ds) = tokNlList ds from by simp [tokNlFE]]
    rw [tokNlList_eq, tokNlList_eq, List.map_map]
    congr 1
    apply List.map_congr_left
    intro d hd
    exact ih d hd
  | hIndent o x ih =>
    rw [show flatten (.Indent o x) = .Indent o (flatten x) from by simp [flatten]]
    simpa [tokNlFE] using ih
  | hLos => simp [flatten, tokNlFE, countNl]
  | hLoe => simp [flatten, tokNlFE]
  | hUnion x y ihx ihy =>
    rw [show flatten (.Union x y) = flatten x from by simp [flatten]]
    simpa [tokNlFE] using ihx

/-! ### Newline counting -/

theorem countNl_append (s t : String) :
    countNl (s ++ t) = countNl s + countNl t := by
  cases s with
  | mk a =>
    cases t with
    | mk b =>
      show countNl (String.mk (a ++ b)) = _
      simp [countNl, List.count_append]

theorem countNl_spaces (n : Nat) : countNl (spaces n) = 0 := by
  simp only [countNl, spaces]
  induction n with
  | zero => rfl
  | succ n ih =>
    simp only [List.replicate_succ, List.count_cons]
    simp only [ih]
    rfl

theorem countNl_print (F : FittedDocument) :
    countNl (print_fitted_document F) = countLines F + textNl F := by
  induction F with
  | Empty => rfl
  | Text s rest ih =>
    simp only [print_fitted_document, countNl_append, countLines, textNl, ih]
    omega
  | Line o rest ih =>
    simp only [print_fitted_document, countNl_append, countLines, textNl, ih,
      countNl_spaces]
    rw [show countNl "\n" = 1 from rfl]
    omega

/-! ### Facts about `fits` -/

theorem fits_zero (F : FittedDocument) : F.fits 0 = false := by
  cases F <;> rfl

theorem fits_mono : ∀ (F : FittedDocument) (b1 b2 : Nat), b1 ≤ b2 →
    F.fits b1 = true → F.fits b2 = true := by
  intro F
  induction F with
  | Empty =>
    intro b1 b2 hle h1
    cases b1 with
    | zero => exact absurd h1 (by simp [fits_zero])
    | succ k =>
      cases b2 with
      | zero => omega
      | succ m => rfl
  | Text s rest ih =>
    intro b1 b2 hle h1
    cases b1 with
    | zero => exact absurd h1 (by simp [fits_zero])
    | succ k =>
      cases b2 with
      | zero => omega
      | succ m =>
        have h1' : rest.fits (k + 1 - s.utf8ByteSize) = true := h1
        show rest.fits (m + 1 - s.utf8ByteSize) = true
        exact ih _ _ (by omega) h1'
  | Line o rest ih =>
    intro b1 b2 hle h1
    cases b1 with
    | zero => exact absurd h1 (by simp [fits_zero])
    | succ k =>
      cases b2 with
      | zero => omega
      | succ m => rfl

theorem fitsSpec_empty (b : Int) :
    fitsSpec b .Empty = if b ≤ 0 then false else true := by
  simp [fitsSpec]

theorem fitsSpec_line (b : Int) (o : Nat) (rest : FittedDocument) :
    fitsSpec b (.Line o rest) = if b ≤ 0 then false else true := by
  simp [fitsSpec]

theorem fitsSpec_text (b : Int) (s : String) (rest : FittedDocument) :
    fitsSpec b (.Text s rest) =
      if b ≤ 0 then false else fitsSpec (b - s.utf8ByteSize) rest := by
  rw [fitsSpec.eq_def]

theorem fitsSpec_nonpos (F : FittedDocument) (b : Int) (h : b ≤ 0) :
    fitsSpec b F = false := by
  rw [fitsSpec.eq_def]
  simp [h]

theorem fits_eq_fitsSpec : ∀ (F : FittedDocument) (b : Nat),
    F.fits b = fitsSpec (b : Int) F := by
  intro F
  induction F with
  | Empty =>
    intro b
    cases b with
    | zero => rw [fitsSpec_nonpos _ _ (by omega)]; rfl
    | succ k => rw [fitsSpec_empty, if_neg (by omega)]; rfl
  | Text s rest ih =>
    intro b
    cases b with
    | zero => rw [fitsSpec_nonpos _ _ (by omega)]; rfl
    | succ k =>
      rw [fitsSpec_text, if_neg (by omega)]
      show rest.fits (k + 1 - s.utf8ByteSize)
        = fitsSpec ((k + 1 : Nat) - (s.utf8ByteSize : Int)) rest
      rcases Nat.le_total s.utf8ByteSize (k + 1) with hle | hgt
      · rw [ih]
        congr 1
        omega
      · have hz : k + 1 - s.utf8ByteSize = 0 := by omega
        rw [hz, fits_zero, fitsSpec_nonpos rest _ (by omega)]
  | Line o rest ih =>
    intro b
    cases b with
    | zero => rw [fitsSpec_nonpos _ _ (by omega)]; rfl
    | succ k => rw [fitsSpec_line, if_neg (by omega)]; rfl

/-! ### Flat documents resolve to pure text -/

theorem prependTexts_nil (F : FittedDocument) : prependTexts [] F = F := rfl

theorem prependTexts_append (a b : List String) (F : FittedDocument) :
    prependTexts (a ++ b) F = prependTexts a (prependTexts b F) := by
  simp [prependTexts, List.foldr_append]

theorem tokens_list_cons (d : FormatElement) (ds : List FormatElement) :
    tokens (.List (d :: ds)) = tokens d ++ tokens (.List ds) := by
  simp [tokens, tokensList]

theorem tokLen_list_cons (d : FormatElement) (ds : List FormatElement) :
    tokLen (.List (d :: ds)) = tokLen d + tokLen (.List ds) := by
  simp [tokLen, tokens_list_cons]

theorem split_flat : ∀ (e : FormatElement), flatFE e = true →
    ∀ (i w cp : Nat) (docs : List (Nat × FormatElement)),
    fit_documents w cp ((i, e) :: docs) =
      (fit_documents w (cp + tokLen e) docs).map (prependTexts (tokens e)) := by
  intro e
  match e with
  | .Empty =>
    intro _ i w cp docs
    rw [fit_empty]
    simp [tokens, tokLen]
    rcases fit_documents w cp docs with _ | F <;> rfl
  | .Token s =>
    intro _ i w cp docs
    rw [fit_token]
    simp [tokens, tokLen]
    rcases fit_documents w (cp + s.utf8ByteSize) docs with _ | F <;> rfl
  | .Indent o x =>
    intro h i w cp docs
    rw [fit_indent]
    have hx : flatFE x = true := by simpa [flatFE] using h
    rw [split_flat x hx (i + o) w cp docs]
    simp [tokens, tokLen]
  | .List [] =>
    intro _ i w cp docs
    rw [fit_list]
    simp [tokens, tokensList, tokLen]
    rcases fit_documents w cp docs with _ | F <;> rfl
  | .List (d :: ds) =>
    intro h i w cp docs
    have hd : flatFE d = true := by
      rw [flatFE_list_eq, List.all_eq_true] at h
      exact h d (by simp)
    have hds : flatFE (.List ds) = true := by
      rw [flatFE_list_eq, List.all_eq_true] at h ⊢
      intro x hx
      exact h x (by simp [hx])
    rw [fit_list]
    rw [show ((d :: ds).map fun d => (i, d)) ++ docs
      = (i, d) :: ((ds.map fun d => (i, d)) ++ docs) from by simp]
    rw [split_flat d hd i w cp ((ds.map fun d => (i, d)) ++ docs)]
    rw [← fit_list]
    rw [split_flat (.List ds) hds i w (cp + tokLen d) docs]
    rw [Option.map_map]
    rw [tokens_list_cons, tokLen_list_cons]
    rw [show cp + (tokLen d + tokLen (.List ds)) = cp + tokLen d + tokLen (.List ds)
      from by omega]
    congr 1
    funext F
    simp [Function.comp, prependTexts_append]
  | .LineOrSpace => intro h; simp [flatFE] at h
  | .LineOrEmpty => intro h; simp [flatFE] at h
  | .Union x y => intro h; simp [flatFE] at h
termination_by e => sizeFE e
decreasing_by
  · simp only [sizeFE]; omega
  · simp only [sizeFE, sizeFEList]; omega
  · have := one_le_sizeFE d; simp only [sizeFE, sizeFEList]; omega

/-! ### Sums over work lists -/

theorem stackUC_cons (i : Nat) (d : FormatElement)
    (docs : List (Nat × FormatElement)) :
    stackUC ((i, d) :: docs) = unionCountFE d + stackUC docs := by
  simp [stackUC]

theorem stackUC_append (a b : List (Nat × FormatElement)) :
    stackUC (a ++ b) = stackUC a + stackUC b := by
  simp [stackUC]

theorem stackUC_map_pair (i : Nat) (ds : List FormatElement) :
    stackUC (ds.map fun d => (i, d)) = unionCountList ds := by
  simp [stackUC, List.map_map]
  rw [show ((fun p => unionCountFE (Prod.snd p)) ∘ fun d => ((i, d) : Nat × FormatElement))
        = unionCountFE from rfl]
  rw [unionCountList_eq]

theorem stackBreaks_cons (i : Nat) (d : FormatElement)
    (docs : List (Nat × FormatElement)) :
    stackBreaks ((i, d) :: docs) = breaksFE d + stackBreaks docs := by
  simp [stackBreaks]

theorem stackBreaks_append (a b : List (Nat × FormatElement)) :
    stackBreaks (a ++ b) = stackBreaks a + stackBreaks b := by
  simp [stackBreaks]

theorem stackBreaks_map_pair (i : Nat) (ds : List FormatElement) :
    stackBreaks (ds.map fun d => (i, d)) = breaksList ds := by
  simp [stackBreaks, List.map_map]
  rw [show ((fun p => breaksFE (Prod.snd p)) ∘ fun d => ((i, d) : Nat × FormatElement))
        = breaksFE from rfl]
  rw [breaksList_eq]

theorem stackTokNl_cons (i : Nat) (d : FormatElement)
    (docs : List (Nat × FormatElement)) :
    stackTokNl ((i, d) :: docs) = tokNlFE d + stackTokNl docs := by
  simp [stackTokNl]

theorem stackTokNl_append (a b : List (Nat × FormatElement)) :
    stackTokNl (a ++ b) = stackTokNl a + stackTokNl b := by
  simp [stackTokNl]

theorem stackTokNl_map_pair (i : Nat) (ds : List FormatElement) :
    stackTokNl (ds.map fun d => (i, d)) = tokNlList ds := by
  simp [stackTokNl, List.map_map]
  rw [show ((fun p => tokNlFE (Prod.snd p)) ∘ fun d => ((i, d) : Nat × FormatElement))
        = tokNlFE from rfl]
  rw [tokNlList_eq]

/-! ### `Union`-free work lists: resolution is total and width-independent -/

theorem uf_resolve : ∀ (l : List (Nat × FormatElement)), stackUC l = 0 →
    ∀ (w cp : Nat), fit_documents w cp l = some (resolveUF l) := by
  intro l
  match l with
  | [] =>
    intro _ w cp
    rw [fit_nil]
    simp [resolveUF]
  | (i, .Empty) :: rest =>
    intro h w cp
    have h' : stackUC rest = 0 := by
      rw [stackUC_cons] at h; simp [unionCountFE] at h; exact h
    rw [fit_empty, uf_resolve rest h' w cp]
    simp [resolveUF]
  | (i, .List ds) :: rest =>
    intro h w cp
    have h' : stackUC ((ds.map fun d => (i, d)) ++ rest) = 0 := by
      rw [stackUC_append, stackUC_map_pair]
      rw [stackUC_cons] at h
      simp only [unionCountFE] at h
      omega
    rw [fit_list, uf_resolve _ h' w cp]
    simp [resolveUF]
  | (i, .Indent o x) :: rest =>
    intro h w cp
    have h' : stackUC ((i + o, x) :: rest) = 0 := by
      rw [stackUC_cons] at h ⊢
      simp only [unionCountFE] at h ⊢
      omega
    rw [fit_indent, uf_resolve _ h' w cp]
    simp [resolveUF]
  | (i, .Token s) :: rest =>
    intro h w cp
    have h' : stackUC rest = 0 := by
      rw [stackUC_cons] at h; simp [unionCountFE] at h; exact h
    rw [fit_token, uf_resolve rest h' w (cp + s.utf8ByteSize)]
    simp [resolveUF]
  | (i, .LineOrSpace) :: rest =>
    intro h w cp
    have h' : stackUC rest = 0 := by
      rw [stackUC_cons] at h; simp [unionCountFE] at h; exact h
    rw [fit_los, uf_resolve rest h' w i]
    simp [resolveUF]
  | (i, .LineOrEmpty) :: rest =>
    intro h w cp
    have h' : stackUC rest = 0 := by
      rw [stackUC_cons] at h; simp [unionCountFE] at h; exact h
    rw [fit_loe, uf_resolve rest h' w i]
    simp [resolveUF]
  | (i, .Union x y) :: rest =>
    intro h w cp
    rw [stackUC_cons] at h
    simp only [unionCountFE] at h
    omega
termination_by l => stackSize l
decreasing_by
  all_goals
    simp only [stackSize_cons, stackSize_append, stackSize_map_pair, sizeFE]
  all_goals omega

theorem resolveUF_countLines : ∀ (l : List (Nat × FormatElement)),
    stackUC l = 0 → countLines (resolveUF l) = stackBreaks l := by
  intro l
  match l with
  | [] => intro _; simp [resolveUF, countLines, stackBreaks]
  | (i, .Empty) :: rest =>
    intro h
    have h' : stackUC rest = 0 := by
      rw [stackUC_cons] at h; simp [unionCountFE] at h; exact h
    rw [show resolveUF ((i, .Empty) :: rest) = resolveUF rest from by simp [resolveUF]]
    rw [resolveUF_countLines rest h', stackBreaks_cons]
    simp [breaksFE]
  | (i, .List ds) :: rest =>
    intro h
    have h' : stackUC ((ds.map fun d => (i, d)) ++ rest) = 0 := by
      rw [stackUC_append, stackUC_map_pair]
      rw [stackUC_cons] at h
      simp only [unionCountFE] at h
      omega
    rw [show resolveUF ((i, .List ds) :: rest)
      = resolveUF ((ds.map fun d => (i, d)) ++ rest) from by simp [resolveUF]]
    rw [resolveUF_countLines _ h']
    rw [stackBreaks_append, stackBreaks_map_pair, stackBreaks_cons]
    simp only [breaksFE]
  | (i, .Indent o x) :: rest =>
    intro h
    have h' : stackUC ((i + o, x) :: rest) = 0 := by
      rw [stackUC_cons] at h ⊢
      simp only [unionCountFE] at h ⊢
      omega
    rw [show resolveUF ((i, .Indent o x) :: rest)
      = resolveUF ((i + o, x) :: rest) from by simp [resolveUF]]
    rw [resolveUF_countLines _ h', stackBreaks_cons, stackBreaks_cons]
    simp [breaksFE]
  | (i, .Token s) :: rest =>
    intro h
    have h' : stackUC rest = 0 := by
      rw [stackUC_cons] at h; simp [unionCountFE] at h; exact h
    rw [show resolveUF ((i, .Token s) :: rest)
      = .Text s (resolveUF rest) from by simp [resolveUF]]
    rw [show countLines (.Text s (resolveUF rest)) = countLines (resolveUF rest)
      from by simp [countLines]]
    rw [resolveUF_countLines rest h', stackBreaks_cons]
    simp [breaksFE]
  | (i, .LineOrSpace) :: rest =>
    intro h
    have h' : stackUC rest = 0 := by
      rw [stackUC_cons] at h; simp [unionCountFE] at h; exact h
    rw [show resolveUF ((i, .LineOrSpace) :: rest)
      = .Line i (resolveUF rest) from by simp [resolveUF]]
    rw [show countLines (.Line i (resolveUF rest)) = 1 + countLines (resolveUF rest)
      from by simp [countLines]]
    rw [resolveUF_countLines rest h', stackBreaks_cons]
    simp [breaksFE]
  | (i, .LineOrEmpty) :: rest =>
    intro h
    have h' : stackUC rest = 0 := by
      rw [stackUC_cons] at h; simp [unionCountFE] at h; exact h
    rw [show resolveUF ((i, .LineOrEmpty) :: rest)
      = .Line i (resolveUF rest) from by simp [resolveUF]]
    rw [show countLines (.Line i (resolveUF rest)) = 1 + countLines (resolveUF rest)
      from by simp [countLines]]
    rw [resolveUF_countLines rest h', stackBreaks_cons]
    simp [breaksFE]
  | (i, .Union x y) :: rest =>
    intro h
    rw [stackUC_cons] at h
    simp only [unionCountFE] at h
    omega
termination_by l => stackSize l
decreasing_by
  all_goals
    simp only [stackSize_cons, stackSize_append, stackSize_map_pair, sizeFE]
  all_goals omega

theorem resolveUF_textNl : ∀ (l : List (Nat × FormatElement)),
    stackUC l = 0 → textNl (resolveUF l) = stackTokNl l := by
  intro l
  match l with
  | [] => intro _; simp [resolveUF, textNl, stackTokNl]
  | (i, .Empty) :: rest =>
    intro h
    have h' : stackUC rest = 0 := by
      rw [stackUC_cons] at h; simp [unionCountFE] at h; exact h
    rw [show resolveUF ((i, .Empty) :: rest) = resolveUF rest from by simp [resolveUF]]
    rw [resolveUF_textNl rest h', stackTokNl_cons]
    simp [tokNlFE]
  | (i, .List ds) :: rest =>
    intro h
    have h' : stackUC ((ds.map fun d => (i, d)) ++ rest) = 0 := by
      rw [stackUC_append, stackUC_map_pair]
      rw [stackUC_cons] at h
      simp only [unionCountFE] at h
      omega
    rw [show resolveUF ((i, .List ds) :: rest)
      = resolveUF ((ds.map fun d => (i, d)) ++ rest) from by simp [resolveUF]]
    rw [resolveUF_textNl _ h']
    rw [stackTokNl_append, stackTokNl_map_pair, stackTokNl_cons]
    simp only [tokNlFE]
  | (i, .Indent o x) :: rest =>
    intro h
    have h' : stackUC ((i + o, x) :: rest) = 0 := by
      rw [stackUC_cons] at h ⊢
      simp only [unionCountFE] at h ⊢
      omega
    rw [show resolveUF ((i, .Indent o x) :: rest)
      = resolveUF ((i + o, x) :: rest) from by simp [resolveUF]]
    rw [resolveUF_textNl _ h', stackTokNl_cons, stackTokNl_cons]
    simp [tokNlFE]
  | (i, .Token s) :: rest =>
    intro h
    have h' : stackUC rest = 0 := by
      rw [stackUC_cons] at h; simp [unionCountFE] at h; exact h
    rw [show resolveUF ((i, .Token s) :: rest)
      = .Text s (resolveUF rest) from by simp [resolveUF]]
    rw [show textNl (.Text s (resolveUF rest)) = countNl s + textNl (resolveUF rest)
      from by simp [textNl]]
    rw [resolveUF_textNl rest h', stackTokNl_cons]
    simp [tokNlFE]
  | (i, .LineOrSpace) :: rest =>
    intro h
    have h' : stackUC rest = 0 := by
      rw [stackUC_cons] at h; simp [unionCountFE] at h; exact h
    rw [show resolveUF ((i, .LineOrSpace) :: rest)
      = .Line i (resolveUF rest) from by simp [resolveUF]]
    rw [show textNl (.Line i (resolveUF rest)) = textNl (resolveUF rest)
      from by simp [textNl]]
    rw [resolveUF_textNl rest h', stackTokNl_cons]
    simp [tokNlFE]
  | (i, .LineOrEmpty) :: rest =>
    intro h
    have h' : stackUC rest = 0 := by
      rw [stackUC_cons] at h; simp [unionCountFE] at h; exact h
    rw [show resolveUF ((i, .LineOrEmpty) :: rest)
      = .Line i (resolveUF rest) from by simp [resolveUF]]
    rw [show textNl (.Line i (resolveUF rest)) = textNl (resolveUF rest)
      from by simp [textNl]]
    rw [resolveUF_textNl rest h', stackTokNl_cons]
    simp [tokNlFE]
  | (i, .Union x y) :: rest =>
    intro h
    rw [stackUC_cons] at h
    simp only [unionCountFE] at h
    omega
termination_by l => stackSize l
decreasing_by
  all_goals
    simp only [stackSize_cons, stackSize_append, stackSize_map_pair, sizeFE]
  all_goals omega

/-! ### The `Union` decision, case by case -/

theorem fit_union_flat (w cp i : Nat) (x y : FormatElement)
    (docs : List (Nat × FormatElement)) (left : FittedDocument) (budget : Nat)
    (hl : fit_documents w cp ((i, x) :: docs) = some left)
    (hb : checkedSub w cp = some budget)
    (hf : left.fits budget = true) :
    fit_documents w cp ((i, .Union x y) :: docs) = some left := by
  rw [fit_union, hl, hb]
  simp [hf]

theorem fit_union_full (w cp i : Nat) (x y : FormatElement)
    (docs : List (Nat × FormatElement)) (left : FittedDocument) (budget : Nat)
    (hl : fit_documents w cp ((i, x) :: docs) = some left)
    (hb : checkedSub w cp = some budget)
    (hf : left.fits budget = false) :
    fit_documents w cp ((i, .Union x y) :: docs) =
      fit_documents w cp ((i, y) :: docs) := by
  rw [fit_union, hl, hb]
  simp [hf]

theorem fit_union_panic (w cp i : Nat) (x y : FormatElement)
    (docs : List (Nat × FormatElement)) (left : FittedDocument)
    (hl : fit_documents w cp ((i, x) :: docs) = some left)
    (hb : checkedSub w cp = none) :
    fit_documents w cp ((i, .Union x y) :: docs) = none := by
  rw [fit_union, hl, hb]

/-! ### Width monotonicity for work lists with at most one choice point -/

theorem mono_main : ∀ (l : List (Nat × FormatElement)),
    (∀ p ∈ l, UnionInv p.2) → stackUC l ≤ 1 →
    ∀ (w1 w2 cp : Nat), w1 ≤ w2 →
    ∀ (f1 f2 : FittedDocument),
    fit_documents w1 cp l = some f1 → fit_documents w2 cp l = some f2 →
    countLines f2 ≤ countLines f1 ∧ textNl f2 = textNl f1 := by
  intro l
  match l with
  | [] =>
    intro _ _ w1 w2 cp _ f1 f2 h1 h2
    rw [fit_nil] at h1 h2
    cases h1
    cases h2
    exact ⟨Nat.le_refl _, rfl⟩
  | (i, .Empty) :: rest =>
    intro hinv huc w1 w2 cp hw f1 f2 h1 h2
    rw [fit_empty] at h1 h2
    exact mono_main rest (fun p hp => hinv p (by simp [hp]))
      (by rw [stackUC_cons] at huc; omega) w1 w2 cp hw f1 f2 h1 h2
  | (i, .List ds) :: rest =>
    intro hinv huc w1 w2 cp hw f1 f2 h1 h2
    rw [fit_list] at h1 h2
    refine mono_main _ ?_ ?_ w1 w2 cp hw f1 f2 h1 h2
    · intro p hp
      rcases List.mem_append.mp hp with hp | hp
      · rcases List.mem_map.mp hp with ⟨d, hd, rfl⟩
        have hl := hinv (i, .List ds) (by simp)
        cases hl with
        | list _ h => exact h d hd
      · exact hinv p (by simp [hp])
    · rw [stackUC_append, stackUC_map_pair]
      rw [stackUC_cons] at huc
      simp only [unionCountFE] at huc
      omega
  | (i, .Indent o x) :: rest =>
    intro hinv huc w1 w2 cp hw f1 f2 h1 h2
    rw [fit_indent] at h1 h2
    refine mono_main _ ?_ ?_ w1 w2 cp hw f1 f2 h1 h2
    · intro p hp
      rcases List.mem_cons.mp hp with rfl | hp
      · have hl := hinv (i, .Indent o x) (by simp)
        cases hl with
        | indent _ _ h => exact h
      · exact hinv p (by simp [hp])
    · rw [stackUC_cons] at huc ⊢
      simp only [unionCountFE] at huc ⊢
      omega
  | (i, .Token s) :: rest =>
    intro hinv huc w1 w2 cp hw f1 f2 h1 h2
    rw [fit_token] at h1 h2
    rcases Option.map_eq_some'.mp h1 with ⟨g1, hg1, rfl⟩
    rcases Option.map_eq_some'.mp h2 with ⟨g2, hg2, rfl⟩
    obtain ⟨hc, ht⟩ := mono_main rest (fun p hp => hinv p (by simp [hp]))
      (by rw [stackUC_cons] at huc; omega) w1 w2 (cp + s.utf8ByteSize) hw g1 g2 hg1 hg2
    exact ⟨by simpa [countLines] using hc, by simp [textNl, ht]⟩
  | (i, .LineOrSpace) :: rest =>
    intro hinv huc w1 w2 cp hw f1 f2 h1 h2
    rw [fit_los] at h1 h2
    rcases Option.map_eq_some'.mp h1 with ⟨g1, hg1, rfl⟩
    rcases Option.map_eq_some'.mp h2 with ⟨g2, hg2, rfl⟩
    obtain ⟨hc, ht⟩ := mono_main rest (fun p hp => hinv p (by simp [hp]))
      (by rw [stackUC_cons] at huc; omega) w1 w2 i hw g1 g2 hg1 hg2
    exact ⟨by simp [countLines]; omega, by simp [textNl, ht]⟩
  | (i, .LineOrEmpty) :: rest =>
    intro hinv huc w1 w2 cp hw f1 f2 h1 h2
    rw [fit_loe] at h1 h2
    rcases Option.map_eq_some'.mp h1 with ⟨g1, hg1, rfl⟩
    rcases Option.map_eq_some'.mp h2 with ⟨g2, hg2, rfl⟩
    obtain ⟨hc, ht⟩ := mono_main rest (fun p hp => hinv p (by simp [hp]))
      (by rw [stackUC_cons] at huc; omega) w1 w2 i hw g1 g2 hg1 hg2
    exact ⟨by simp [countLines]; omega, by simp [textNl, ht]⟩
  | (i, .Union x y) :: rest =>
    intro hinv huc w1 w2 cp hw f1 f2 h1 h2
    have hu := hinv (i, .Union x y) (by simp)
    cases hu with
    | union _ _ hxy hx hy =>
    rw [stackUC_cons] at huc
    simp only [unionCountFE] at huc
    have hLx : stackUC ((i, x) :: rest) = 0 := by rw [stackUC_cons]; omega
    have hLy : stackUC ((i, y) :: rest) = 0 := by rw [stackUC_cons]; omega
    by_cases hcp : cp ≤ w1
    · have hcp2 : cp ≤ w2 := Nat.le_trans hcp hw
      have hb1 : checkedSub w1 cp = some (w1 - cp) := by simp [checkedSub, hcp]
      have hb2 : checkedSub w2 cp = some (w2 - cp) := by simp [checkedSub, hcp2]
      by_cases hfit1 : FittedDocument.fits (resolveUF ((i, x) :: rest)) (w1 - cp) = true
      · have hfit2 : FittedDocument.fits (resolveUF ((i, x) :: rest)) (w2 - cp) = true :=
          fits_mono _ _ _ (Nat.sub_le_sub_right hw cp) hfit1
        have e1 := fit_union_flat w1 cp i x y rest _ _ (uf_resolve _ hLx w1 cp) hb1 hfit1
        have e2 := fit_union_flat w2 cp i x y rest _ _ (uf_resolve _ hLx w2 cp) hb2 hfit2
        rw [e1] at h1
        rw [e2] at h2
        cases h1
        cases h2
        exact ⟨Nat.le_refl _, rfl⟩
      · have hf1 : FittedDocument.fits (resolveUF ((i, x) :: rest)) (w1 - cp) = false := by
          simpa using hfit1
        have e1 := fit_union_full w1 cp i x y rest _ _ (uf_resolve _ hLx w1 cp) hb1 hf1
        rw [e1, uf_resolve _ hLy w1 cp] at h1
        cases h1
        by_cases hfit2 : FittedDocument.fits (resolveUF ((i, x) :: rest)) (w2 - cp) = true
        · have e2 := fit_union_flat w2 cp i x y rest _ _ (uf_resolve _ hLx w2 cp) hb2 hfit2
          rw [e2] at h2
          cases h2
          constructor
          · rw [resolveUF_countLines _ hLx, resolveUF_countLines _ hLy]
            rw [stackBreaks_cons, stackBreaks_cons]
            have hbx : breaksFE x = 0 := by
              rw [hxy]; exact flatFE_breaks _ (flatten_flatFE y)
            omega
          · rw [resolveUF_textNl _ hLx, resolveUF_textNl _ hLy]
            rw [stackTokNl_cons, stackTokNl_cons]
            rw [hxy, tokNl_flatten]
        · have hf2 : FittedDocument.fits (resolveUF ((i, x) :: rest)) (w2 - cp) = false := by
            simpa using hfit2
          have e2 := fit_union_full w2 cp i x y rest _ _ (uf_resolve _ hLx w2 cp) hb2 hf2
          rw [e2, uf_resolve _ hLy w2 cp] at h2
          cases h2
          exact ⟨Nat.le_refl _, rfl⟩
    · have hb1 : checkedSub w1 cp = none := by simp [checkedSub]; omega
      have e1 := fit_union_panic w1 cp i x y rest _ (uf_resolve _ hLx w1 cp) hb1
      rw [e1] at h1
      cases h1
termination_by l => stackSize l
decreasing_by
  all_goals
    simp only [stackSize_cons, stackSize_append, stackSize_map_pair, sizeFE]
  all_goals omega

/-! ### Constructor-built documents satisfy the `Union` invariant -/

theorem flatten_unionInv : ∀ d, UnionInv (flatten d) := by
  intro d
  induction d using FormatElement.indOn with
  | hEmpty => rw [show flatten .Empty = .Empty from by simp [flatten]]; exact .empty
  | hToken s => rw [show flatten (.Token s) = .Token s from by simp [flatten]]
                exact .token s
  | hList ds ih =>
    rw [flatten_list_eq]
    refine .list _ ?_
    intro d hd
    rcases List.mem_map.mp hd with ⟨d0, hd0, rfl⟩
    exact ih d0 hd0
  | hIndent o x ih =>
    rw [show flatten (.Indent o x) = .Indent o (flatten x) from by simp [flatten]]
    exact .indent o _ ih
  | hLos => rw [show flatten .LineOrSpace = .Token " " from by simp [flatten]]
            exact .token " "
  | hLoe => rw [show flatten .LineOrEmpty = .Empty from by simp [flatten]]
            exact .empty
  | hUnion x y ihx ihy =>
    rw [show flatten (.Union x y) = flatten x from by simp [flatten]]
    exact ihx

theorem built_unionInv : ∀ d, Built d → UnionInv d := by
  intro d hb
  induction hb with
  | empty => exact .empty
  | text s => exact .token s
  | concat ds hds ih => exact .list ds ih
  | nest o d hd ih => exact .indent o d ih
  | lineOrSpace => exact .lineOrSpace
  | lineOrEmpty => exact .lineOrEmpty
  | group d hd ih => exact .union _ _ rfl (flatten_unionInv d) ih

/-! ### Indentation accumulates along nested `Nest` wrappers -/

theorem fit_nests : ∀ (offs : List Nat) (i : Nat) (d : FormatElement)
    (w cp : Nat) (docs : List (Nat × FormatElement)),
    fit_documents w cp ((i, nests offs d) :: docs) =
      fit_documents w cp ((i + offs.sum, d) :: docs) := by
  intro offs
  induction offs with
  | nil => intro i d w cp docs; simp [nests]
  | cons o os ih =>
    intro i d w cp docs
    rw [show nests (o :: os) d = .Indent o (nests os d) from rfl]
    rw [fit_indent, ih]
    rw [List.sum_cons, ← Nat.add_assoc]

/-! ### Token newline sums of flat documents -/

theorem tokensNl : ∀ e, flatFE e = true →
    ((tokens e).map countNl).sum = tokNlFE e := by
  intro e
  induction e using FormatElement.indOn with
  | hEmpty => intro _; simp [tokens, tokNlFE]
  | hToken s => intro _; simp [tokens, tokNlFE]
  | hList ds ih =>
    intro h
    rw [flatFE_list_eq, List.all_eq_true] at h
    rw [show tokens (.List ds) = tokensList ds from by simp [tokens]]
    rw [show tokNlFE (.List ds) = tokNlList ds from by simp [tokNlFE]]
    induction ds with
    | nil => simp [tokensList, tokNlList]
    | cons d ds ihds =>
      rw [show tokensList (d :: ds) = tokens d ++ tokensList ds from by
        simp [tokensList]]
      rw [show tokNlList (d :: ds) = tokNlFE d + tokNlList ds from by
        simp [tokNlList]]
      rw [List.map_append, List.sum_append]
      rw [ih d (by simp) (h d (by simp))]
      rw [ihds (fun d hd => ih d (by simp [hd])) (fun d hd => h d (by simp [hd]))]
  | hIndent o x ih =>
    intro h
    simp only [flatFE] at h
    rw [show tokens (.Indent o x) = tokens x from by simp [tokens]]
    rw [show tokNlFE (.Indent o x) = tokNlFE x from by simp [tokNlFE]]
    exact ih h
  | hLos => intro h; simp [flatFE] at h
  | hLoe => intro h; simp [flatFE] at h
  | hUnion x y ihx ihy => intro h; simp [flatFE] at h

/-! ### `prependTexts` facts -/

theorem countLines_prependTexts (ss : List String) (F : FittedDocument) :
    countLines (prependTexts ss F) = countLines F := by
  induction ss with
  | nil => rfl
  | cons s ss ih =>
    rw [show prependTexts (s :: ss) F = .Text s (prependTexts ss F) from rfl]
    simp [countLines, ih]

theorem textNl_prependTexts (ss : List String) (F : FittedDocument) :
    textNl (prependTexts ss F) = (ss.map countNl).sum + textNl F := by
  induction ss with
  | nil => simp [prependTexts_nil]
  | cons s ss ih =>
    rw [show prependTexts (s :: ss) F = .Text s (prependTexts ss F) from rfl]
    simp [textNl, ih]
    omega

/-! ### Example documents used by concrete counterexamples and witnesses -/

/-- `concat [text "a", line_or_space, text "b"]`. -/
def exC2 : FormatElement := .List [.Token "a", .LineOrSpace, .Token "b"]

/-- Two sequential groups: `concat [group (concat [text "aaaa", line_or_space,
text "bb"]), group (concat [line_or_space, line_or_space])]`. -/
def exC8 : FormatElement :=
  .List [group (.List [.Token "aaaa", .LineOrSpace, .Token "bb"]),
    group (.List [.LineOrSpace, .LineOrSpace])]

/-- A single group: `group (concat [text "ab", line_or_space, text "cd"])`. -/
def exW8 : FormatElement := group (.List [.Token "ab", .LineOrSpace, .Token "cd"])

/-! ### Claims -/

/-- C1: the claim says `pretty` is total — never failing or panicking, in
particular when the placed-column count exceeds the width.  The code is not:
at width 1, after placing the token `"aa"` (2 columns), the `Union` decision
computes `width - chars_left = 1 - 2` on `usize`, an arithmetic underflow
(panic in debug builds); the model therefore returns `none` instead of a
string. -/
theorem c1_underflow_not_total :
    pretty 1 (.List [.Token "aa", group .Empty]) = none := by
  simp [pretty, fit_document, fit_documents, group, flatten, pick_better_fit,
    checkedSub]
  decide

/-- C2 counterexample: the flattened rendering of `exC2` is `"a b"`, 3
columns, which fits within width 4 counted from column 0 (it even passes the
engine's own `fits` test on the flat branch alone), yet the layout engine
resolves the group to its broken alternative — the committed fitted document
carries a `Line` node from the group and the output is `"a\nbcc"` — because
the speculative fit also consumes the token `"cc"` that follows the group. -/
theorem c2_counterexample :
    pretty 100 (flatten exC2) = some "a b" ∧
    ("a b").utf8ByteSize ≤ 4 - 0 ∧
    fit_document 4 0 (flatten exC2) =
      some (.Text "a" (.Text " " (.Text "b" .Empty))) ∧
    FittedDocument.fits (.Text "a" (.Text " " (.Text "b" .Empty))) (4 - 0) = true ∧
    fit_document 4 0 (.List [group exC2, .Token "cc"]) =
      some (.Text "a" (.Line 0 (.Text "b" (.Text "cc" .Empty)))) ∧
    pretty 4 (.List [group exC2, .Token "cc"]) = some "a\nbcc" ∧
    countNl "a\nbcc" = 1 := by
  refine ⟨?_, by decide, ?_, by decide, ?_, ?_, by decide⟩ <;>
    (simp [pretty, fit_document, fit_documents, group, flatten, flattenList,
      pick_better_fit, checkedSub, exC2]; try decide)

/-- C2 (amended): if the *speculative* flat resolution — `flatten d` resolved
together with the entire remaining work list — passes the engine's `fits`
test with budget `width - col`, the group commits to it, and the group's own
contribution to the committed result is pure `Text` (its flat tokens), never
a `Line`. -/
theorem c2_flat_fit_commits (w cp i : Nat) (d : FormatElement)
    (docs : List (Nat × FormatElement)) (rest : FittedDocument)
    (hcp : cp ≤ w)
    (hrest : fit_documents w (cp + tokLen (flatten d)) docs = some rest)
    (hfits : FittedDocument.fits (prependTexts (tokens (flatten d)) rest)
      (w - cp) = true) :
    fit_documents w cp ((i, group d) :: docs) =
      some (prependTexts (tokens (flatten d)) rest) := by
  have hflat := flatten_flatFE d
  have hsplit := split_flat (flatten d) hflat i w cp docs
  rw [hrest] at hsplit
  exact fit_union_flat w cp i (flatten d) d docs _ (w - cp) hsplit
    (by simp [checkedSub, hcp]) hfits

/-- C2 witness: a concrete group whose flat speculation fits at width 10 and
is committed. -/
theorem c2_witness :
    fit_documents 10 0 [(0, group exC2)] =
      some (prependTexts (tokens (flatten exC2)) .Empty) :=
  c2_flat_fit_commits 10 0 0 exC2 [] .Empty (by decide) (fit_nil 10 _)
    (by simp [exC2, flatten, flattenList, tokens, tokensList, prependTexts]
        decide)

/-- C3: at a `Union(flatAlt, fullAlt)` the engine speculatively resolves
`flatAlt` together with the entire remaining work list `docs`; if that
speculative result passes the `fits` test it is committed, and otherwise the
engine resolves `fullAlt` with the same remaining work list and commits to
that. -/
theorem c3_union_decision (w cp i : Nat) (x y : FormatElement)
    (docs : List (Nat × FormatElement)) (left : FittedDocument) (budget : Nat)
    (hleft : fit_documents w cp ((i, x) :: docs) = some left)
    (hbudget : checkedSub w cp = some budget) :
    (left.fits budget = true →
      fit_documents w cp ((i, .Union x y) :: docs) = some left) ∧
    (left.fits budget = false →
      fit_documents w cp ((i, .Union x y) :: docs) =
        fit_documents w cp ((i, y) :: docs)) :=
  ⟨fun hf => fit_union_flat w cp i x y docs left budget hleft hbudget hf,
   fun hf => fit_union_full w cp i x y docs left budget hleft hbudget hf⟩

/-- C3 witness: a concrete `Union` whose flat branch fits and is committed. -/
theorem c3_witness :
    fit_documents 5 0 [(0, .Union (.Token "aa") .LineOrSpace)] =
      some (.Text "aa" .Empty) :=
  (c3_union_decision 5 0 0 (.Token "aa") .LineOrSpace [] (.Text "aa" .Empty) 5
    (by rw [fit_token, fit_nil]; rfl) (by decide)).1 (by decide)

/-- C4: the `fits` test with budget `b` equals the spec's description
(`fitsSpec`, over integer budgets: subtract each `Text` length, succeed on
reaching a `Line` or the end before the budget stops being positive), and a
budget of exactly 0 never fits, for any fitted document. -/
theorem c4_fits_exact :
    (∀ (b : Nat) (F : FittedDocument), F.fits b = fitsSpec (b : Int) F) ∧
    (∀ F : FittedDocument, F.fits 0 = false) :=
  ⟨fun b F => fits_eq_fitsSpec F b, fits_zero⟩

/-- C5: the claim says that at width 0 the feasibility test always fails (it
does: budget 0 never fits) and that every reached choice point therefore
resolves to its broken alternative, while a lone `Text` still prints in full.
The code violates the middle part: a choice point reached after any placed
text makes `pick_better_fit` compute `0 - chars_placed` on `usize`, an
arithmetic underflow (panic in debug builds), modelled as `none`; the lone
`Text` part does hold. -/
theorem c5_width_zero :
    pretty 0 (.List [.Token "a", group .Empty]) = none ∧
    pretty 0 (.Token "abc") = some "abc" ∧
    (∀ F : FittedDocument, F.fits 0 = false) := by
  refine ⟨?_, ?_, fits_zero⟩ <;>
    (simp [pretty, fit_document, fit_documents, group, flatten,
      pick_better_fit, checkedSub]; decide)

/-- C6: `group d` is exactly `Union(flatten d, d)`, and every document built
with the public constructors satisfies the invariant that each of its
`Union` nodes pairs `flatten(second component)` with the second component. -/
theorem c6_group_flatten_union :
    (∀ d : FormatElement, group d = .Union (flatten d) d) ∧
    (∀ d : FormatElement, Built d → UnionInv d) :=
  ⟨fun _ => rfl, built_unionInv⟩

/-- C6 witness: a concrete constructor-built document and its invariant. -/
theorem c6_witness : UnionInv (group (.Token "a")) :=
  c6_group_flatten_union.2 (group (.Token "a"))
    (Built.group (.Token "a") (Built.text "a"))

/-- C7: `flatten` is idempotent — structurally, hence also textually after
rendering at any width. -/
theorem c7_flatten_idempotent : ∀ d : FormatElement,
    flatten (flatten d) = flatten d :=
  flatten_idem_all

/-- C8 counterexample: `exC8` (two sequential groups) renders with one line
break at width 7 but with two line breaks at the larger width 8 — increasing
the width increases the number of newline characters in the output, so width
monotonicity fails. -/
theorem c8_counterexample :
    7 ≤ 8 ∧
    pretty 7 exC8 = some "aaaa\nbb  " ∧
    pretty 8 exC8 = some "aaaa bb\n\n" ∧
    ¬(countNl "aaaa bb\n\n" ≤ countNl "aaaa\nbb  ") := by
  refine ⟨by decide, ?_, ?_, by decide⟩ <;>
    (simp [pretty, fit_document, fit_documents, group, flatten, flattenList,
      pick_better_fit, checkedSub, exC8]; decide)

/-- C8 (amended): for a document built by the public constructors that
contains at most one choice point (`Union`), increasing the width never
increases the number of newline characters of the rendered output (whenever
both renders return a string). -/
theorem c8_monotone_single_choice (d : FormatElement) (w1 w2 : Nat)
    (s1 s2 : String)
    (hbuilt : Built d) (huc : unionCountFE d ≤ 1) (hw : w1 ≤ w2)
    (h1 : pretty w1 d = some s1) (h2 : pretty w2 d = some s2) :
    countNl s2 ≤ countNl s1 := by
  rw [pretty, fit_document] at h1 h2
  rcases Option.map_eq_some'.mp h1 with ⟨f1, hf1, rfl⟩
  rcases Option.map_eq_some'.mp h2 with ⟨f2, hf2, rfl⟩
  have hinv : ∀ p ∈ [((0 : Nat), d)], UnionInv p.2 := by
    intro p hp
    rw [List.mem_singleton] at hp
    subst hp
    exact built_unionInv d hbuilt
  have huc' : stackUC [((0 : Nat), d)] ≤ 1 := by
    rw [show stackUC [((0 : Nat), d)] = unionCountFE d from by simp [stackUC]]
    exact huc
  obtain ⟨hc, ht⟩ := mono_main [((0 : Nat), d)] hinv huc' w1 w2 0 hw f1 f2 hf1 hf2
  rw [countNl_print, countNl_print]
  omega

/-- C8 witness: a single group rendered at widths 3 and 10. -/
theorem c8_witness :
    pretty 3 exW8 = some "ab\ncd" ∧
    pretty 10 exW8 = some "ab cd" ∧
    countNl "ab cd" ≤ countNl "ab\ncd" := by
  refine ⟨?_, ?_, ?_⟩
  · simp [pretty, fit_document, fit_documents, group, flatten, flattenList,
      pick_better_fit, checkedSub, exW8]
    decide
  · simp [pretty, fit_document, fit_documents, group, flatten, flattenList,
      pick_better_fit, checkedSub, exW8]
    decide
  · refine c8_monotone_single_choice exW8 3 10 "ab\ncd" "ab cd" ?_ ?_ (by decide) ?_ ?_
    · refine Built.group _ (Built.concat _ ?_)
      intro x hx
      simp only [List.mem_cons, List.not_mem_nil, or_false] at hx
      rcases hx with rfl | rfl | rfl
      · exact Built.text "ab"
      · exact Built.lineOrSpace
      · exact Built.text "cd"
    · simp [exW8, group, unionCountFE, unionCountList, flatten, flattenList]
    · simp [pretty, fit_document, fit_documents, group, flatten, flattenList,
        pick_better_fit, checkedSub, exW8]
      decide
    · simp [pretty, fit_document, fit_documents, group, flatten, flattenList,
        pick_better_fit, checkedSub, exW8]
      decide

/-- C9: indentation is additive: a chain of `Nest` wrappers shifts the
ambient indent by the sum of its offsets (in particular `Nest(a, Nest(b, ·))`
by exactly `a + b`); a break emits a `Line` carrying exactly the ambient
indent (and resets the column to it); and the renderer prints a `Line n` as a
newline followed by exactly `n` spaces. -/
theorem c9_indent_additive :
    (∀ (offs : List Nat) (i : Nat) (d : FormatElement) (w cp : Nat)
      (docs : List (Nat × FormatElement)),
      fit_documents w cp ((i, nests offs d) :: docs) =
        fit_documents w cp ((i + offs.sum, d) :: docs)) ∧
    (∀ (w cp i a b : Nat) (d : FormatElement)
      (docs : List (Nat × FormatElement)),
      fit_documents w cp ((i, .Indent a (.Indent b d)) :: docs) =
        fit_documents w cp ((i + (a + b), d) :: docs)) ∧
    (∀ (w cp i : Nat) (docs : List (Nat × FormatElement)),
      fit_documents w cp ((i, .LineOrSpace) :: docs) =
        (fit_documents w i docs).map (FittedDocument.Line i)) ∧
    (∀ (w cp i : Nat) (docs : List (Nat × FormatElement)),
      fit_documents w cp ((i, .LineOrEmpty) :: docs) =
        (fit_documents w i docs).map (FittedDocument.Line i)) ∧
    (∀ (n : Nat) (rest : FittedDocument),
      print_fitted_document (.Line n rest) =
        "\n" ++ spaces n ++ print_fitted_document rest) := by
  refine ⟨fit_nests, ?_, fit_los, fit_loe, fun n rest => rfl⟩
  intro w cp i a b d docs
  rw [fit_indent, fit_indent, Nat.add_assoc]

/-- C10 counterexample: `flatten` of the token `"a\nb"` is the token itself,
and rendering it (at any width, here 0) produces a string that does contain a
newline character — the embedded one — so "no newline character" is false as
stated. -/
theorem c10_counterexample :
    flatten (.Token "a\nb") = .Token "a\nb" ∧
    pretty 0 (flatten (.Token "a\nb")) = some "a\nb" ∧
    0 < countNl "a\nb" := by
  refine ⟨by simp [flatten], ?_, by decide⟩
  simp [pretty, fit_document, fit_documents, flatten]
  decide

/-- C10 (amended): `flatten d` is built only from `Empty`, `Token`, `List`
and `Indent`; laying it out at any width and start column succeeds and
yields a fitted document consisting solely of its flat tokens as `Text`
nodes — no `Line` node — and the rendered string's newline characters are
exactly those embedded in the document's `Token` strings (so none when no
token embeds one). -/
theorem c10_flatten_no_lines (d : FormatElement) (w cp : Nat) :
    flatFE (flatten d) = true ∧
    fit_document w cp (flatten d) =
      some (prependTexts (tokens (flatten d)) .Empty) ∧
    countLines (prependTexts (tokens (flatten d)) .Empty) = 0 ∧
    countNl (print_fitted_document (prependTexts (tokens (flatten d)) .Empty)) =
      tokNlFE d := by
  have hf := flatten_flatFE d
  refine ⟨hf, ?_, countLines_prependTexts _ _, ?_⟩
  · rw [show fit_document w cp (flatten d)
      = fit_documents w cp [(0, flatten d)] from rfl]
    rw [split_flat (flatten d) hf 0 w cp [], fit_nil]
    rfl
  · rw [countNl_print, countLines_prependTexts, textNl_prependTexts]
    rw [tokensNl _ hf, tokNl_flatten]
    simp [countLines, textNl]

end Newfmt
